import Mathlib

/-!
# Verification of the emcc launcher wrapper (src/wrapper.c)

Shallow embedding of the command-line reconstruction subsystem of the
Windows launcher stub:

* `parse_command_line` — the CRT-style command-line tokenizer
  (src/wrapper.c lines 146–276).  A wide string is modelled as a
  `List Char` holding the characters strictly before the terminating NUL.
  The boolean parameter `w` models whether the output pointers
  (`argv` / `args`) are real buffers (`true`, the copy pass) or NULL
  (`false`, the sizing pass); every `if (argv)` / `if (args)` guard in the
  source becomes a guard on `w`, while the count updates are unconditional,
  exactly as in the source.
* `derive_script_path` / `emcc_script_path` — the extension substitution of
  `emcc_get_argc_argv` (lines 283–287).
* `build_final_argv` / `emcc_build_argv` — the argv injection
  (lines 292–333).
* `windows_api_get_buffer_call_sized` and `grow_loop` — the two branches of
  the variable-length query protocol `windows_api_get_buffer_call`
  (lines 60–107).
* `wmain_select_strategy` / `wmain_exit_code` — the launch strategy
  selection of `wmainCRTStartup` (lines 349–373).
-/

namespace EmccWrapper

/-- Models the null-pointer guards `if (args) *args++ = …` of the source:
characters are emitted only when the output buffer is present (`w = true`). -/
def emitIf (w : Bool) (l : List Char) : List Char :=
  if w then l else []

/-- The backslash-counting loop `while (*p == '\\') { ++p; ++numslash; }`
(src/wrapper.c lines 220–224): length of the maximal leading backslash run. -/
def countSlashes : List Char → Nat
  | [] => 0
  | c :: rest => if c = '\\' then countSlashes rest + 1 else 0

/-- The whitespace-skipping loop `while (*p == ' ' || *p == '\t') ++p;`
(src/wrapper.c lines 197–198). -/
def skipWs (l : List Char) : List Char :=
  l.dropWhile (fun c => c == ' ' || c == '\t')

/-- The program-name scan of `parse_command_line`
(src/wrapper.c lines 158–190): the do/while loop that copies the program
name.  Quote characters toggle `in_quotes` and are neither copied nor
counted; every other character is counted (and copied when a buffer is
present), and the loop exits after a NUL or an unquoted space/tab.  The
character that ends the token is counted but becomes the terminator
(the source either copies the string's NUL or overwrites the copied
separator with NUL), so the count always exceeds the name length by one.
Returns (program name characters written, character count contribution,
remaining input after the token). -/
def parseProgName (w : Bool) : List Char → Bool → List Char × Nat × List Char
  | [], _q => ([], 1, [])
  | c :: rest, q =>
    if c = '"' then
      parseProgName w rest (!q)
    else if q ∨ (c ≠ ' ' ∧ c ≠ '\t') then
      let r := parseProgName w rest q
      (emitIf w [c] ++ r.1, r.2.1 + 1, r.2.2)
    else
      ([], 1, rest)

/-- One iteration sequence of the inner argument-scanning loop of
`parse_command_line` (src/wrapper.c lines 211–262), starting at input `l`
with quote state `q`:

* count the leading backslash run (lines 220–224);
* if a quote follows: with an even run either the escaped-quote rule
  (`in_quotes && p[1] == '"'`, lines 230–231: skip the first quote, the
  second is copied as a literal) or the quote toggle (lines 233–236: the
  quote is not copied, `in_quotes` flips); the run contributes
  `numslash / 2` literal backslashes (line 239);
* emit the remaining backslashes (lines 243–247);
* stop at NUL or at unquoted space/tab (line 250), otherwise copy the
  current character when `copy_character` is set and advance (lines 254–261).

Returns (characters written, character count contribution, remaining input,
final quote state). -/
def scanArg (w : Bool) (l : List Char) (q : Bool) : List Char × Nat × List Char × Bool :=
  let ns := countSlashes l
  match h : l.drop ns with
  | [] => (emitIf w (List.replicate ns '\\'), ns, [], q)
  | c :: rest =>
    if c = '"' then
      if ns % 2 = 0 then
        if q = true ∧ rest.head? = some '"' then
          let r := scanArg w rest.tail q
          (emitIf w (List.replicate (ns / 2) '\\' ++ ['"']) ++ r.1,
           ns / 2 + 1 + r.2.1, r.2.2.1, r.2.2.2)
        else
          let r := scanArg w rest (!q)
          (emitIf w (List.replicate (ns / 2) '\\') ++ r.1,
           ns / 2 + r.2.1, r.2.2.1, r.2.2.2)
      else
        let r := scanArg w rest q
        (emitIf w (List.replicate (ns / 2) '\\' ++ ['"']) ++ r.1,
         ns / 2 + 1 + r.2.1, r.2.2.1, r.2.2.2)
    else if ¬q ∧ (c = ' ' ∨ c = '\t') then
      (emitIf w (List.replicate ns '\\'), ns, c :: rest, q)
    else
      let r := scanArg w rest q
      (emitIf w (List.replicate ns '\\' ++ [c]) ++ r.1,
       ns + 1 + r.2.1, r.2.2.1, r.2.2.2)
termination_by l.length
decreasing_by
  · have hlen := congrArg List.length h
    simp [List.length_drop] at hlen
    have : rest.tail.length = rest.length - 1 := List.length_tail rest
    omega
  · have hlen := congrArg List.length h
    simp [List.length_drop] at hlen
    omega
  · have hlen := congrArg List.length h
    simp [List.length_drop] at hlen
    omega
  · have hlen := congrArg List.length h
    simp [List.length_drop] at hlen
    omega

/-- `countSlashes` is zero unless the list starts with a backslash. -/
theorem countSlashes_eq_zero {c : Char} (l : List Char) (hc : c ≠ '\\') :
    countSlashes (c :: l) = 0 := by
  simp [countSlashes, hc]

/-- Unfolding of `scanArg` at the end of the string (break at NUL with only
backslashes left). -/
theorem scanArg_eq_nil (w : Bool) (l : List Char) (q : Bool)
    (h : l.drop (countSlashes l) = []) :
    scanArg w l q = (emitIf w (List.replicate (countSlashes l) '\\'), countSlashes l, [], q) := by
  rw [scanArg]
  split
  · rfl
  · rename_i c rest h2
    rw [h] at h2
    exact absurd h2 (by simp)

/-- Unfolding of `scanArg` at the escaped-quote rule: an even backslash run,
a quote, already inside quotes, and a second quote right behind
(src/wrapper.c lines 230–231). -/
theorem scanArg_eq_dq (w : Bool) (l : List Char) (q : Bool) (rest : List Char)
    (h : l.drop (countSlashes l) = '"' :: rest)
    (he : countSlashes l % 2 = 0) (hq : q = true ∧ rest.head? = some '"') :
    scanArg w l q =
      (emitIf w (List.replicate (countSlashes l / 2) '\\' ++ ['"']) ++ (scanArg w rest.tail q).1,
       countSlashes l / 2 + 1 + (scanArg w rest.tail q).2.1,
       (scanArg w rest.tail q).2.2.1, (scanArg w rest.tail q).2.2.2) := by
  rw [scanArg]
  split
  · rename_i h2; rw [h] at h2; exact absurd h2 (by simp)
  · rename_i c rest' h2
    rw [h] at h2
    injection h2 with hc hr
    subst hc; subst hr
    rw [if_pos rfl, if_pos he, if_pos hq]

/-- Unfolding of `scanArg` at the quote toggle: an even backslash run and a
quote that starts or ends quoted mode (src/wrapper.c lines 233–236). -/
theorem scanArg_eq_toggle (w : Bool) (l : List Char) (q : Bool) (rest : List Char)
    (h : l.drop (countSlashes l) = '"' :: rest)
    (he : countSlashes l % 2 = 0) (hq : ¬(q = true ∧ rest.head? = some '"')) :
    scanArg w l q =
      (emitIf w (List.replicate (countSlashes l / 2) '\\') ++ (scanArg w rest (!q)).1,
       countSlashes l / 2 + (scanArg w rest (!q)).2.1,
       (scanArg w rest (!q)).2.2.1, (scanArg w rest (!q)).2.2.2) := by
  rw [scanArg]
  split
  · rename_i h2; rw [h] at h2; exact absurd h2 (by simp)
  · rename_i c rest' h2
    rw [h] at h2
    injection h2 with hc hr
    subst hc; subst hr
    rw [if_pos rfl, if_pos he, if_neg hq]

/-- Unfolding of `scanArg` at the literal quote: an odd backslash run before
a quote (src/wrapper.c lines 216, 239). -/
theorem scanArg_eq_lit (w : Bool) (l : List Char) (q : Bool) (rest : List Char)
    (h : l.drop (countSlashes l) = '"' :: rest)
    (he : ¬countSlashes l % 2 = 0) :
    scanArg w l q =
      (emitIf w (List.replicate (countSlashes l / 2) '\\' ++ ['"']) ++ (scanArg w rest q).1,
       countSlashes l / 2 + 1 + (scanArg w rest q).2.1,
       (scanArg w rest q).2.2.1, (scanArg w rest q).2.2.2) := by
  rw [scanArg]
  split
  · rename_i h2; rw [h] at h2; exact absurd h2 (by simp)
  · rename_i c rest' h2
    rw [h] at h2
    injection h2 with hc hr
    subst hc; subst hr
    rw [if_pos rfl, if_neg he]

/-- Unfolding of `scanArg` at the end of an argument: an unquoted space or
tab after the backslash run (src/wrapper.c line 250). -/
theorem scanArg_eq_break (w : Bool) (l : List Char) (q : Bool) (c : Char) (rest : List Char)
    (h : l.drop (countSlashes l) = c :: rest)
    (hc : c ≠ '"') (hbr : ¬q = true ∧ (c = ' ' ∨ c = '\t')) :
    scanArg w l q = (emitIf w (List.replicate (countSlashes l) '\\'), countSlashes l, c :: rest, q) := by
  rw [scanArg]
  split
  · rename_i h2; rw [h] at h2; exact absurd h2 (by simp)
  · rename_i c' rest' h2
    rw [h] at h2
    injection h2 with hc' hr
    subst hc'; subst hr
    rw [if_neg hc, if_pos hbr]

/-- Unfolding of `scanArg` at an ordinary copied character
(src/wrapper.c lines 254–261). -/
theorem scanArg_eq_copy (w : Bool) (l : List Char) (q : Bool) (c : Char) (rest : List Char)
    (h : l.drop (countSlashes l) = c :: rest)
    (hc : c ≠ '"') (hbr : ¬(¬q = true ∧ (c = ' ' ∨ c = '\t'))) :
    scanArg w l q =
      (emitIf w (List.replicate (countSlashes l) '\\' ++ [c]) ++ (scanArg w rest q).1,
       countSlashes l + 1 + (scanArg w rest q).2.1,
       (scanArg w rest q).2.2.1, (scanArg w rest q).2.2.2) := by
  rw [scanArg]
  split
  · rename_i h2; rw [h] at h2; exact absurd h2 (by simp)
  · rename_i c' rest' h2
    rw [h] at h2
    injection h2 with hc' hr
    subst hc'; subst hr
    rw [if_neg hc, if_neg hbr]

/-- The input left over by `scanArg` is never longer than its input
(`p` only moves forward). -/
theorem scanArg_rem_le (w : Bool) (l : List Char) (q : Bool) :
    (scanArg w l q).2.2.1.length ≤ l.length := by
  induction l, q using scanArg.induct w with
  | case1 l q ns h =>
    rw [show ns = countSlashes l from rfl] at h
    rw [scanArg_eq_nil w l q h]
    simp
  | case2 l q ns rest he hq h ih =>
    rw [show ns = countSlashes l from rfl] at h he
    rw [scanArg_eq_dq w l q rest h he hq]
    dsimp only
    have h1 : rest.tail.length = rest.length - 1 := List.length_tail rest
    have h2 := congrArg List.length h
    simp only [List.length_drop, List.length_cons] at h2
    omega
  | case3 l q ns rest he hq h ih =>
    rw [show ns = countSlashes l from rfl] at h he
    rw [scanArg_eq_toggle w l q rest h he hq]
    dsimp only
    have h2 := congrArg List.length h
    simp only [List.length_drop, List.length_cons] at h2
    omega
  | case4 l q ns rest he h ih =>
    rw [show ns = countSlashes l from rfl] at h he
    rw [scanArg_eq_lit w l q rest h he]
    dsimp only
    have h2 := congrArg List.length h
    simp only [List.length_drop, List.length_cons] at h2
    omega
  | case5 l q ns c rest h hc hbr =>
    rw [show ns = countSlashes l from rfl] at h
    rw [scanArg_eq_break w l q c rest h hc hbr]
    dsimp only
    have h2 := congrArg List.length h
    simp only [List.length_drop, List.length_cons] at h2
    simp only [List.length_cons]
    omega
  | case6 l q ns c rest h hc hbr ih =>
    rw [show ns = countSlashes l from rfl] at h
    rw [scanArg_eq_copy w l q c rest h hc hbr]
    dsimp only
    have h2 := congrArg List.length h
    simp only [List.length_drop, List.length_cons] at h2
    omega

/-- When an argument scan starts at a character that is not a space or tab
(as arranged by the separator-skipping loop), `scanArg` consumes at least
one character. -/
theorem scanArg_rem_lt (w : Bool) (c : Char) (rest : List Char) (q : Bool)
    (h1 : c ≠ ' ') (h2 : c ≠ '\t') :
    (scanArg w (c :: rest) q).2.2.1.length < (c :: rest).length := by
  by_cases hc : c = '\\'
  · -- a leading backslash: at least one character is consumed by the run
    have hns : 1 ≤ countSlashes (c :: rest) := by
      subst hc; simp [countSlashes]
    cases hdrop : (c :: rest).drop (countSlashes (c :: rest)) with
    | nil =>
      rw [scanArg_eq_nil w _ q hdrop]
      simp
    | cons c' rest' =>
      have hlen := congrArg List.length hdrop
      simp only [List.length_drop, List.length_cons] at hlen
      by_cases hq : c' = '"'
      · subst hq
        by_cases hev : countSlashes (c :: rest) % 2 = 0
        · by_cases hqq : q = true ∧ rest'.head? = some '"'
          · rw [scanArg_eq_dq w _ q rest' hdrop hev hqq]
            dsimp only
            have hle := scanArg_rem_le w rest'.tail q
            have ht : rest'.tail.length = rest'.length - 1 := List.length_tail rest'
            simp only [List.length_cons]
            omega
          · rw [scanArg_eq_toggle w _ q rest' hdrop hev hqq]
            dsimp only
            have hle := scanArg_rem_le w rest' (!q)
            simp only [List.length_cons]
            omega
        · rw [scanArg_eq_lit w _ q rest' hdrop hev]
          dsimp only
          have hle := scanArg_rem_le w rest' q
          simp only [List.length_cons]
          omega
      · by_cases hbr : ¬q = true ∧ (c' = ' ' ∨ c' = '\t')
        · rw [scanArg_eq_break w _ q c' rest' hdrop hq hbr]
          dsimp only
          simp only [List.length_cons]
          omega
        · rw [scanArg_eq_copy w _ q c' rest' hdrop hq hbr]
          dsimp only
          have hle := scanArg_rem_le w rest' q
          simp only [List.length_cons]
          omega
  · -- no backslash run: the head character itself is handled
    have hns : countSlashes (c :: rest) = 0 := countSlashes_eq_zero rest hc
    have hdrop : (c :: rest).drop (countSlashes (c :: rest)) = c :: rest := by
      rw [hns]; rfl
    by_cases hq : c = '"'
    · subst hq
      have hev : countSlashes ('"' :: rest) % 2 = 0 := by rw [hns]
      by_cases hqq : q = true ∧ rest.head? = some '"'
      · rw [scanArg_eq_dq w _ q rest hdrop hev hqq]
        dsimp only
        have hle := scanArg_rem_le w rest.tail q
        have ht : rest.tail.length = rest.length - 1 := List.length_tail rest
        simp only [List.length_cons]
        omega
      · rw [scanArg_eq_toggle w _ q rest hdrop hev hqq]
        dsimp only
        have hle := scanArg_rem_le w rest (!q)
        simp only [List.length_cons]
        omega

    · have hbr : ¬(¬q = true ∧ (c = ' ' ∨ c = '\t')) := by
        rintro ⟨-, hw | hw⟩
        · exact h1 hw
        · exact h2 hw
      rw [scanArg_eq_copy w _ q c rest hdrop hq hbr]
      dsimp only
      have hle := scanArg_rem_le w rest q
      simp only [List.length_cons]
      omega

/-- The separator-skipping loop leaves the input at a character that is not
a space or tab, without ever growing the input. -/
theorem skipWs_head (l : List Char) (c : Char) (rest : List Char)
    (h : skipWs l = c :: rest) :
    (c ≠ ' ' ∧ c ≠ '\t') ∧ (c :: rest).length ≤ l.length := by
  constructor
  · have hh := List.head?_dropWhile_not (fun c => c == ' ' || c == '\t') l
    rw [show l.dropWhile (fun c => c == ' ' || c == '\t') = skipWs l from rfl, h] at hh
    simp only [List.head?_cons] at hh
    constructor
    · intro he; rw [he] at hh; simp at hh
    · intro he; rw [he] at hh; simp at hh
  · have := (List.dropWhile_sublist (l := l) (fun c => c == ' ' || c == '\t')).length_le
    rw [show l.dropWhile (fun c => c == ' ' || c == '\t') = skipWs l from rfl, h] at this
    exact this

/-- The outer per-argument loop of `parse_command_line`
(src/wrapper.c lines 194–269): skip separating spaces/tabs, stop at the end
of the string, otherwise record an argv slot, bump the argument count, scan
one argument, then count (and, in the copy pass, write) its NUL terminator.
The quote state left by `scanArg` is threaded to the next iteration exactly
as the C `in_quotes` variable is.  Returns (argv slots written, argument
count contribution, character count contribution). -/
def parseArgs (w : Bool) (l : List Char) (q : Bool) :
    List (Option (List Char)) × Nat × Nat :=
  match h : skipWs l with
  | [] => ([], 0, 0)
  | c :: rest =>
    let r := scanArg w (c :: rest) q
    let r2 := parseArgs w r.2.2.1 r.2.2.2
    ((if w then [some r.1] else []) ++ r2.1, 1 + r2.2.1, r.2.1 + 1 + r2.2.2)
termination_by l.length
decreasing_by
  have hh := skipWs_head l c rest h
  have hlt := scanArg_rem_lt w c rest q hh.1.1 hh.1.2
  omega

/-- `parse_command_line` (src/wrapper.c lines 146–276) in full: the counts
start at `character_count = 0`, `argument_count = 1` (lines 151–152), the
program name is scanned (lines 158–190), `in_quotes` is reset (line 192),
the argument loop runs (lines 194–269), and finally the NULL argv sentinel
is appended and the argument count bumped once more (lines 271–275).
`w = false` is the sizing pass (NULL `argv`/`args`), `w = true` the copy
pass.  Returns (argv slots including the NULL sentinel, argument count,
character count). -/
def parse_command_line (w : Bool) (cmd : List Char) :
    List (Option (List Char)) × Nat × Nat :=
  let p := parseProgName w cmd false
  let a := parseArgs w p.2.2 false
  ((if w then [some p.1] else []) ++ a.1 ++ (if w then [(none : Option (List Char))] else []),
   1 + a.2.1 + 1, p.2.1 + a.2.2)

/-- The extension substitution of `emcc_get_argc_argv`
(src/wrapper.c line 284): `memcpy(launcher_path + launcher_path_length - 3,
L"py", 6)` overwrites the last three characters of the resolved module path
with `p`, `y`, NUL, so the resulting string is the original path up to its
last three characters followed by `py`. -/
def derive_script_path (path : List Char) : List Char :=
  path.take (path.length - 3) ++ ['p', 'y']

/-- Script-path derivation followed by full-path canonicalization
(src/wrapper.c lines 284–287): the substituted path is handed to
`GetFullPathNameW` (through `get_full_path_name`), modelled by the abstract
canonicalization function `canon`. -/
def emcc_script_path (canon : List Char → List Char) (module_path : List Char) :
    List Char :=
  canon (derive_script_path module_path)

/-- The injected isolation flag (src/wrapper.c line 331). -/
def eFlag : List Char := ['-', 'E']

/-- The argv injection of `emcc_get_argc_argv` (src/wrapper.c lines 329–332)
on the pointer array: the buffer holds two prepended slots followed by the
original argv (`argv[2]` onward, NULL sentinel included); then
`argv[0] = argv[2]` (the original program name), `argv[1] = L"-E"`,
`argv[2] = long_script_path_in_argv`. -/
def build_final_argv (orig : List (Option (List Char))) (script : List Char) :
    List (Option (List Char)) :=
  match orig with
  | prog :: rest => prog :: some eFlag :: some script :: rest
  | [] => []

/-- `emcc_get_argc_argv` (src/wrapper.c lines 292–333) after the OS calls:
given the derived script path and the raw command line, run the sizing pass,
run the copy pass, and build the final vector;
`*argc_ptr = (int)(2 + argument_count - 1)` (line 328). -/
def emcc_build_argv (script : List Char) (cmd : List Char) :
    Nat × List (Option (List Char)) :=
  let r := parse_command_line true cmd
  (2 + r.2.1 - 1, build_final_argv r.1 script)

/-- The length-known branch of `windows_api_get_buffer_call`
(src/wrapper.c lines 63–73 and 99–106): the zero-capacity probe returns a
positive definite size, a buffer of exactly that many characters is
allocated, one real fetch is made, and the call fails (returns NULL) unless
the fetched size plus one equals the allocated size.  The callback is
modelled by `api : capacity ↦ returned size`; the result records the
reported size on success, the list of allocated capacities, and the number
of real (non-probe) fetches.  A probe result of zero leads to the
length-unknown branch (lines 74–97), modelled separately by `grow_loop`. -/
def windows_api_get_buffer_call_sized (api : Nat → Nat) :
    Option Nat × List Nat × Nat :=
  let size := api 0
  let buffer_size := size
  if 0 < buffer_size then
    let size2 := api buffer_size
    if size2 + 1 ≠ buffer_size then (none, [buffer_size], 1)
    else (some size2, [buffer_size], 1)
  else (none, [], 0)

/-- A provider of the length-unknown convention (`GetModuleFileNameW`-style)
whose result string has length `L`: when the string and its terminator fit
the capacity, the call returns `L` and sets the last error to
`ERROR_SUCCESS` (0); otherwise it truncates, returns the capacity, and sets
`ERROR_INSUFFICIENT_BUFFER` (122). -/
def unknown_api_fetch (L cap : Nat) : Nat × Nat :=
  if L + 1 ≤ cap then (L, 0) else (cap, 122)

/-- Result of the retry loop: the final fetched length, the final
last-error value, and the capacities allocated, in order. -/
structure GrowResult where
  size : Nat
  err : Nat
  caps : List Nat
deriving DecidableEq

/-- The retry loop of `windows_api_get_buffer_call`
(src/wrapper.c lines 79-86) against a length-unknown provider of string
length `L`, entered (as in the source) after the zero-capacity probe has
set `ERROR_INSUFFICIENT_BUFFER`, so the body always runs at least once:
grow the capacity with `buffer_size = (buffer_size << 1) + 32`, fetch, and
repeat while the provider keeps signalling insufficient capacity. -/
def grow_loop (L cap : Nat) : GrowResult :=
  if h : (unknown_api_fetch L (2 * cap + 32)).2 = 122 then
    let r := grow_loop L (2 * cap + 32)
    ⟨r.size, r.err, (2 * cap + 32) :: r.caps⟩
  else
    ⟨(unknown_api_fetch L (2 * cap + 32)).1, (unknown_api_fetch L (2 * cap + 32)).2,
     [2 * cap + 32]⟩
termination_by L + 1 - cap
decreasing_by
  by_cases hle : L + 1 ≤ 2 * cap + 32
  · simp only [unknown_api_fetch, if_pos hle] at h
    exact absurd h (by simp)
  · omega

/-- A launch strategy of `wmainCRTStartup`: load an interpreter module
in-process (`LoadLibraryW`) or spawn an external child process.  The
source only ever loads a module; the child variant exists in the type so
that the selection behaviour can be stated and refuted. -/
inductive LaunchStrategyKind where
  | loadModule : List Char → LaunchStrategyKind
  | spawnChild : List Char → LaunchStrategyKind
deriving DecidableEq

/-- The built-in interpreter module name `python3.dll`
(src/wrapper.c line 356). -/
def default_python_module : List Char :=
  ['p', 'y', 't', 'h', 'o', 'n', '3', '.', 'd', 'l', 'l']

/-- The launch-strategy selection of `wmainCRTStartup`
(src/wrapper.c lines 349–357): when `EMSDK_PYTHON_DLL` is set, its value is
passed to `LoadLibraryW`; when it is absent, `LoadLibraryW(L"python3.dll")`
is called.  Both paths load a module in-process. -/
def wmain_select_strategy (emsdk_python_dll : Option (List Char)) :
    LaunchStrategyKind :=
  match emsdk_python_dll with
  | some path => .loadModule path
  | none => .loadModule default_python_module

/-- The exit-code computation of `wmainCRTStartup`
(src/wrapper.c lines 358–373): `ret` starts at -1 and becomes the value
returned by `Py_Main(argc, argv)` only when the module loaded, the `Py_Main`
symbol resolved, and `emcc_get_argc_argv` produced a vector; the process
then exits with `ret`. -/
def wmain_exit_code (load_ok resolve_ok argv_ok : Bool) (py_main_ret : Int) : Int :=
  if load_ok then
    if resolve_ok then
      if argv_ok then py_main_ret else -1
    else -1
  else -1

/-- Unfolding of `parseArgs` at the end of the command line. -/
theorem parseArgs_eq_nil (w : Bool) (l : List Char) (q : Bool)
    (h : skipWs l = []) : parseArgs w l q = ([], 0, 0) := by
  rw [parseArgs]
  split
  · rfl
  · rename_i c rest h2
    rw [h] at h2
    exact absurd h2 (by simp)

/-- Unfolding of `parseArgs` at the start of an argument. -/
theorem parseArgs_eq_cons (w : Bool) (l : List Char) (q : Bool) (c : Char)
    (rest : List Char) (h : skipWs l = c :: rest) :
    parseArgs w l q =
      ((if w then [some (scanArg w (c :: rest) q).1] else []) ++
        (parseArgs w (scanArg w (c :: rest) q).2.2.1 (scanArg w (c :: rest) q).2.2.2).1,
       1 + (parseArgs w (scanArg w (c :: rest) q).2.2.1 (scanArg w (c :: rest) q).2.2.2).2.1,
       (scanArg w (c :: rest) q).2.1 + 1 +
        (parseArgs w (scanArg w (c :: rest) q).2.2.1 (scanArg w (c :: rest) q).2.2.2).2.2) := by
  rw [parseArgs]
  split
  · rename_i h2; rw [h] at h2; exact absurd h2 (by simp)
  · rename_i c' rest' h2
    rw [h] at h2
    injection h2 with hc hr
    subst hc; subst hr
    rfl

/-- The counts and the leftover input of the program-name scan do not depend
on whether output buffers are present. -/
theorem parseProgName_snd_indep (w : Bool) (l : List Char) (q : Bool) :
    (parseProgName w l q).2 = (parseProgName true l q).2 := by
  induction l generalizing q with
  | nil => rfl
  | cons c rest ih =>
    simp only [parseProgName]
    by_cases hc : c = '"'
    · simp only [if_pos hc]
      exact ih (!q)
    · by_cases hq : (q : Prop) ∨ (c ≠ ' ' ∧ c ≠ '\t')
      · simp only [if_neg hc, if_pos hq]
        simp [ih q]
      · simp only [if_neg hc, if_neg hq]

/-- In the copy pass, the character count of the program-name scan is the
length of the name written plus one (its NUL terminator). -/
theorem parseProgName_count (l : List Char) (q : Bool) :
    (parseProgName true l q).2.1 = (parseProgName true l q).1.length + 1 := by
  induction l generalizing q with
  | nil => rfl
  | cons c rest ih =>
    simp only [parseProgName]
    by_cases hc : c = '"'
    · simp only [if_pos hc]
      exact ih (!q)
    · by_cases hq : (q : Prop) ∨ (c ≠ ' ' ∧ c ≠ '\t')
      · simp only [if_neg hc, if_pos hq]
        simp [emitIf, ih q]
      · simp only [if_neg hc, if_neg hq]
        simp

/-- The counts, leftover input and final quote state of `scanArg` do not
depend on whether output buffers are present: only the emitted characters
do. -/
theorem scanArg_snd_indep (w : Bool) (l : List Char) (q : Bool) :
    (scanArg w l q).2 = (scanArg true l q).2 := by
  induction l, q using scanArg.induct w with
  | case1 l q ns h =>
    rw [show ns = countSlashes l from rfl] at h
    rw [scanArg_eq_nil w l q h, scanArg_eq_nil true l q h]
  | case2 l q ns rest he hq h ih =>
    rw [show ns = countSlashes l from rfl] at h he
    rw [scanArg_eq_dq w l q rest h he hq, scanArg_eq_dq true l q rest h he hq, ih]
  | case3 l q ns rest he hq h ih =>
    rw [show ns = countSlashes l from rfl] at h he
    rw [scanArg_eq_toggle w l q rest h he hq, scanArg_eq_toggle true l q rest h he hq, ih]
  | case4 l q ns rest he h ih =>
    rw [show ns = countSlashes l from rfl] at h he
    rw [scanArg_eq_lit w l q rest h he, scanArg_eq_lit true l q rest h he, ih]
  | case5 l q ns c rest h hc hbr =>
    rw [show ns = countSlashes l from rfl] at h
    rw [scanArg_eq_break w l q c rest h hc hbr, scanArg_eq_break true l q c rest h hc hbr]
  | case6 l q ns c rest h hc hbr ih =>
    rw [show ns = countSlashes l from rfl] at h
    rw [scanArg_eq_copy w l q c rest h hc hbr, scanArg_eq_copy true l q c rest h hc hbr, ih]

/-- In the copy pass, `scanArg` counts exactly the characters it writes. -/
theorem scanArg_count_eq_length (l : List Char) (q : Bool) :
    (scanArg true l q).2.1 = (scanArg true l q).1.length := by
  induction l, q using scanArg.induct true with
  | case1 l q ns h =>
    rw [show ns = countSlashes l from rfl] at h
    rw [scanArg_eq_nil true l q h]
    simp [emitIf]
  | case2 l q ns rest he hq h ih =>
    rw [show ns = countSlashes l from rfl] at h he
    rw [scanArg_eq_dq true l q rest h he hq]
    dsimp only
    simp [emitIf, ih]
    omega
  | case3 l q ns rest he hq h ih =>
    rw [show ns = countSlashes l from rfl] at h he
    rw [scanArg_eq_toggle true l q rest h he hq]
    dsimp only
    simp [emitIf, ih]
  | case4 l q ns rest he h ih =>
    rw [show ns = countSlashes l from rfl] at h he
    rw [scanArg_eq_lit true l q rest h he]
    dsimp only
    simp [emitIf, ih]
    omega
  | case5 l q ns c rest h hc hbr =>
    rw [show ns = countSlashes l from rfl] at h
    rw [scanArg_eq_break true l q c rest h hc hbr]
    simp [emitIf]
  | case6 l q ns c rest h hc hbr ih =>
    rw [show ns = countSlashes l from rfl] at h
    rw [scanArg_eq_copy true l q c rest h hc hbr]
    dsimp only
    simp [emitIf, ih]
    omega

/-- The counts of the argument loop do not depend on whether output buffers
are present. -/
theorem parseArgs_snd_indep (w : Bool) (l : List Char) (q : Bool) :
    (parseArgs w l q).2 = (parseArgs true l q).2 := by
  induction l, q using parseArgs.induct w with
  | case1 l q h =>
    rw [parseArgs_eq_nil w l q h, parseArgs_eq_nil true l q h]
  | case2 l q c rest h r ih =>
    rw [parseArgs_eq_cons w l q c rest h, parseArgs_eq_cons true l q c rest h]
    have hs := scanArg_snd_indep w (c :: rest) q
    dsimp only
    rw [show (scanArg true (c :: rest) q).2.2 = (scanArg w (c :: rest) q).2.2 from
          (congrArg Prod.snd hs).symm]
    rw [show (scanArg true (c :: rest) q).2.1 = (scanArg w (c :: rest) q).2.1 from
          (congrArg Prod.fst hs).symm]
    have ih2 : (parseArgs w (scanArg w (c :: rest) q).2.2.1 (scanArg w (c :: rest) q).2.2.2).2 =
        (parseArgs true (scanArg w (c :: rest) q).2.2.1 (scanArg w (c :: rest) q).2.2.2).2 := ih
    rw [ih2]

/-- In the copy pass, the argument loop produces exactly the list of scanned
arguments: one argv slot per argument, the argument count is the number of
slots, and the character count is the total length of the arguments with one
NUL terminator each. -/
theorem parseArgs_struct (l : List Char) (q : Bool) :
    ∃ es : List (List Char),
      parseArgs true l q =
        (es.map some, es.length, (es.map (fun a => a.length + 1)).sum) := by
  induction l, q using parseArgs.induct true with
  | case1 l q h =>
    exact ⟨[], by rw [parseArgs_eq_nil true l q h]; simp⟩
  | case2 l q c rest h r ih =>
    obtain ⟨es, hes⟩ := ih
    refine ⟨(scanArg true (c :: rest) q).1 :: es, ?_⟩
    rw [parseArgs_eq_cons true l q c rest h]
    have hes2 : parseArgs true (scanArg true (c :: rest) q).2.2.1
        (scanArg true (c :: rest) q).2.2.2 =
        (es.map some, es.length, (es.map (fun a => a.length + 1)).sum) := hes
    rw [hes2]
    simp [scanArg_count_eq_length (c :: rest) q]
    omega

/-- C5: for every resolved module path ending in a 3-character extension,
the derived script path is the module path with those 3 characters replaced
by the 2-character script extension `py`, and the path handed to full-path
canonicalization is exactly that substituted path. -/
theorem C5_script_path_extension_substitution
    (canon : List Char → List Char) (stem : List Char) (e1 e2 e3 : Char) :
    derive_script_path (stem ++ [e1, e2, e3]) = stem ++ ['p', 'y'] ∧
    emcc_script_path canon (stem ++ [e1, e2, e3]) = canon (stem ++ ['p', 'y']) := by
  have hd : derive_script_path (stem ++ [e1, e2, e3]) = stem ++ ['p', 'y'] := by
    unfold derive_script_path
    have hlen : (stem ++ [e1, e2, e3]).length - 3 = stem.length := by
      simp
    rw [hlen]
    rw [List.take_left stem [e1, e2, e3]]
  exact ⟨hd, by rw [emcc_script_path, hd]⟩

/-- C6: the injector turns an original argument vector (program name first)
and a script path into `program name :: flag :: script :: remaining
original arguments`, which is two slots longer than the original. -/
theorem C6_argv_injection (prog : Option (List Char))
    (rest : List (Option (List Char))) (script : List Char) :
    build_final_argv (prog :: rest) script =
      prog :: some eFlag :: some script :: rest ∧
    (build_final_argv (prog :: rest) script).length = (prog :: rest).length + 2 := by
  constructor
  · rfl
  · simp [build_final_argv]

/-- C7: in the length-known convention (positive zero-capacity probe `P`),
exactly one buffer of capacity `P` is allocated, exactly one real fetch is
made, the query fails exactly when the fetched length plus its terminator
disagrees with the probe, and otherwise the fetched length is returned. -/
theorem C7_sized_query_single_fetch (api : Nat → Nat) (hp : 0 < api 0) :
    windows_api_get_buffer_call_sized api =
      (if api (api 0) + 1 = api 0 then some (api (api 0)) else none,
       [api 0], 1) := by
  by_cases h : api (api 0) + 1 = api 0
  · simp [windows_api_get_buffer_call_sized, hp, h]
  · simp [windows_api_get_buffer_call_sized, hp, h]

theorem C7_sized_query_single_fetch_witness :
    0 < (fun cap : Nat => if cap = 0 then 5 else 4) 0 ∧
    windows_api_get_buffer_call_sized (fun cap => if cap = 0 then 5 else 4) =
      (some 4, [5], 1) := by
  constructor
  · decide
  · have h := C7_sized_query_single_fetch (fun cap => if cap = 0 then 5 else 4)
      (by decide)
    simpa using h

/-- Unfolding of `grow_loop` when the provider still signals
`ERROR_INSUFFICIENT_BUFFER`. -/
theorem grow_loop_eq_cont (L cap : Nat)
    (h : (unknown_api_fetch L (2 * cap + 32)).2 = 122) :
    grow_loop L cap =
      ⟨(grow_loop L (2 * cap + 32)).size, (grow_loop L (2 * cap + 32)).err,
       (2 * cap + 32) :: (grow_loop L (2 * cap + 32)).caps⟩ := by
  conv_lhs => rw [grow_loop]
  simp only [dif_pos h]

/-- Unfolding of `grow_loop` when the fetch no longer signals
`ERROR_INSUFFICIENT_BUFFER`. -/
theorem grow_loop_eq_stop (L cap : Nat)
    (h : ¬(unknown_api_fetch L (2 * cap + 32)).2 = 122) :
    grow_loop L cap =
      ⟨(unknown_api_fetch L (2 * cap + 32)).1,
       (unknown_api_fetch L (2 * cap + 32)).2, [2 * cap + 32]⟩ := by
  conv_lhs => rw [grow_loop]
  simp only [dif_neg h]

/-- Auxiliary for C8: full behaviour of the retry loop from any capacity:
the loop ends with `ERROR_SUCCESS` and the fetched length, every step at
least doubles the capacity and strictly grows it, the first allocation is
`2 * cap + 32`, and the last allocated capacity fits the result and its
terminator. -/
theorem grow_loop_spec (L : Nat) : ∀ cap : Nat,
    (grow_loop L cap).err = 0 ∧
    (grow_loop L cap).size = L ∧
    (grow_loop L cap).caps.head? = some (2 * cap + 32) ∧
    List.Chain' (fun a b => 2 * a ≤ b ∧ a < b) (cap :: (grow_loop L cap).caps) ∧
    (∀ d : Nat, L + 1 ≤ (grow_loop L cap).caps.getLastD d) := by
  intro cap
  induction cap using grow_loop.induct L with
  | case1 cap h ih =>
    obtain ⟨i1, i2, i3, i4, i5⟩ := ih
    rw [grow_loop_eq_cont L cap h]
    dsimp only
    refine ⟨i1, i2, rfl, ?_, ?_⟩
    · rw [List.chain'_cons]
      exact ⟨⟨by omega, by omega⟩, i4⟩
    · intro d
      rw [List.getLastD_cons]
      exact i5 _
  | case2 cap h =>
    have hle : L + 1 ≤ 2 * cap + 32 := by
      by_contra hcon
      exact h (by simp [unknown_api_fetch, hcon])
    rw [grow_loop_eq_stop L cap h]
    have hf : unknown_api_fetch L (2 * cap + 32) = (L, 0) := by
      simp [unknown_api_fetch, hle]
    rw [hf]
    refine ⟨rfl, rfl, rfl, ?_, ?_⟩
    · rw [List.chain'_cons]
      exact ⟨⟨by omega, by omega⟩, by simp⟩
    · intro d
      simpa using hle

/-- C8: from the zero capacity at which the retry loop is entered, the
capacities allocated across iterations start at the positive baseline 32,
strictly increase and at least double at each step, the loop terminates (in
finitely many iterations, `caps` being a finite list) with `ERROR_SUCCESS`
and the full fetched length, and the last capacity accommodates the whole
result and its terminator. -/
theorem C8_grow_loop_monotone_and_reaches (L : Nat) :
    (grow_loop L 0).err = 0 ∧
    (grow_loop L 0).size = L ∧
    (grow_loop L 0).caps.head? = some 32 ∧
    List.Chain' (fun a b => 2 * a ≤ b ∧ a < b) (0 :: (grow_loop L 0).caps) ∧
    L + 1 ≤ (grow_loop L 0).caps.getLastD 0 := by
  obtain ⟨h1, h2, h3, h4, h5⟩ := grow_loop_spec L 0
  refine ⟨h1, h2, ?_, h4, h5 0⟩
  simpa using h3

/-- C9 (amended): the launcher always loads an interpreter module
in-process: the environment override names the module when present, and the
built-in `python3.dll` is used when it is absent; when the module loads,
the entry symbol resolves and the argument vector is built, the entry
point's return value is the process exit code, and any failure yields -1. -/
theorem C9_launch_strategy_amended (p : List Char) (r : Int) :
    wmain_select_strategy (some p) = LaunchStrategyKind.loadModule p ∧
    wmain_select_strategy none = LaunchStrategyKind.loadModule default_python_module ∧
    wmain_exit_code true true true r = r ∧
    wmain_exit_code false true true r = -1 ∧
    wmain_exit_code true false true r = -1 ∧
    wmain_exit_code true true false r = -1 :=
  ⟨rfl, rfl, rfl, rfl, rfl, rfl⟩

/-- C9 (counterexample to the claim as stated): with the override absent the
launcher does not spawn an external executable; it loads the built-in
module `python3.dll` in-process. -/
theorem C9_launch_strategy_counterexample :
    wmain_select_strategy none = LaunchStrategyKind.loadModule default_python_module ∧
    ((∃ exe, wmain_select_strategy none = LaunchStrategyKind.spawnChild exe) → False) := by
  refine ⟨rfl, ?_⟩
  rintro ⟨exe, h⟩
  exact LaunchStrategyKind.noConfusion h

/-- C1: the sizing pass (null output pointers) and the copy pass (real
output buffers) of the tokenizer report identical argument counts and
identical character counts on every command line. -/
theorem C1_sizing_and_copy_counts_agree (cmd : List Char) :
    (parse_command_line false cmd).2 = (parse_command_line true cmd).2 := by
  have hp := parseProgName_snd_indep false cmd false
  have hcnt : (parseProgName false cmd false).2.1 = (parseProgName true cmd false).2.1 :=
    congrArg Prod.fst hp
  have hrem : (parseProgName false cmd false).2.2 = (parseProgName true cmd false).2.2 :=
    congrArg Prod.snd hp
  have ha : (parseArgs false (parseProgName false cmd false).2.2 false).2 =
      (parseArgs true (parseProgName true cmd false).2.2 false).2 := by
    rw [hrem]
    exact parseArgs_snd_indep false _ false
  have ha1 := congrArg Prod.fst ha
  have ha2 := congrArg Prod.snd ha
  simp only [parse_command_line]
  rw [hcnt, ha1, ha2]

/-- C4: tokenizing the empty command line yields the empty program name as
the only real argument followed by the NULL sentinel slot, an argument
count of 2 (one real argument plus the sentinel), and a character count of
1 (the program name's terminator). -/
theorem C4_empty_command_line :
    parse_command_line true [] = ([some [], none], 2, 1) := by
  have ha : parseArgs true [] false = ([], 0, 0) :=
    parseArgs_eq_nil true [] false (by simp [skipWs])
  simp [parse_command_line, parseProgName, ha]

/-- C10: in the copy pass the tokenizer produces the real arguments
followed by the NULL sentinel slot; the reported argument count is the
number of real arguments (program name included) plus one for the
sentinel; the reported character count is the sum over the real arguments
of (length + 1), one NUL terminator per argument; and the final argc
derived by the caller, `2 + argument_count - 1`, is the number of real
arguments plus two. -/
theorem C10_count_accounting (cmd script : List Char) :
    ∃ reals : List (List Char),
      parse_command_line true cmd =
        (reals.map some ++ [none], reals.length + 1,
         (reals.map (fun a => a.length + 1)).sum) ∧
      (emcc_build_argv script cmd).1 = reals.length + 2 := by
  obtain ⟨es, hes⟩ := parseArgs_struct (parseProgName true cmd false).2.2 false
  have hmain : parse_command_line true cmd =
      (((parseProgName true cmd false).1 :: es).map some ++ [none],
       ((parseProgName true cmd false).1 :: es).length + 1,
       ((((parseProgName true cmd false).1 :: es)).map (fun a => a.length + 1)).sum) := by
    simp only [parse_command_line]
    rw [hes, parseProgName_count cmd false]
    simp [Prod.ext_iff, emitIf]
    omega
  refine ⟨(parseProgName true cmd false).1 :: es, hmain, ?_⟩
  simp only [emcc_build_argv]
  rw [hmain]
  simp
  omega

/-- A backslash run before a non-backslash character is counted in full. -/
theorem countSlashes_replicate (n : Nat) (c : Char) (t : List Char)
    (hc : c ≠ '\\') :
    countSlashes (List.replicate n '\\' ++ c :: t) = n := by
  induction n with
  | zero => simpa using countSlashes_eq_zero t hc
  | succ n ih => simp [List.replicate_succ, countSlashes, ih]

/-- A backslash run at the end of the string is counted in full. -/
theorem countSlashes_replicate_nil (n : Nat) :
    countSlashes (List.replicate n '\\') = n := by
  induction n with
  | zero => rfl
  | succ n ih => simp [List.replicate_succ, countSlashes, ih]

/-- Dropping the backslash run leaves the rest of the input. -/
theorem drop_countSlashes_replicate (n : Nat) (x : List Char)
    (h : countSlashes (List.replicate n '\\' ++ x) = n) :
    (List.replicate n '\\' ++ x).drop
      (countSlashes (List.replicate n '\\' ++ x)) = x := by
  rw [h]
  exact List.drop_left' (List.length_replicate n '\\')

/-- C2 (amended): within a non-program-name token, a run of `N` backslashes
right before a quote contributes `N / 2` literal backslashes when `N` is
even and the quote then toggles quoted mode without being copied — except
when the tokenizer is already inside quotes and a second quote follows
immediately, which is the escaped-quote rule of C3; with `N` odd the run
contributes `(N - 1) / 2` literal backslashes plus one literal quote and
the quote mode is unchanged; and a run of `N` backslashes not followed by
a quote is copied literally in full. -/
theorem C2_backslash_rule_amended (w : Bool) (n : Nat) (q : Bool)
    (rest : List Char) :
    (n % 2 = 0 → ¬(q = true ∧ rest.head? = some '"') →
      scanArg w (List.replicate n '\\' ++ '"' :: rest) q =
        (emitIf w (List.replicate (n / 2) '\\') ++ (scanArg w rest (!q)).1,
         n / 2 + (scanArg w rest (!q)).2.1,
         (scanArg w rest (!q)).2.2.1, (scanArg w rest (!q)).2.2.2)) ∧
    (n % 2 = 1 →
      scanArg w (List.replicate n '\\' ++ '"' :: rest) q =
        (emitIf w (List.replicate (n / 2) '\\' ++ ['"']) ++ (scanArg w rest q).1,
         n / 2 + 1 + (scanArg w rest q).2.1,
         (scanArg w rest q).2.2.1, (scanArg w rest q).2.2.2)) ∧
    (scanArg w (List.replicate n '\\') q =
      (emitIf w (List.replicate n '\\'), n, [], q)) ∧
    (∀ c t, c ≠ '"' → c ≠ '\\' →
      (¬q = true ∧ (c = ' ' ∨ c = '\t') →
        scanArg w (List.replicate n '\\' ++ c :: t) q =
          (emitIf w (List.replicate n '\\'), n, c :: t, q)) ∧
      (¬(¬q = true ∧ (c = ' ' ∨ c = '\t')) →
        scanArg w (List.replicate n '\\' ++ c :: t) q =
          (emitIf w (List.replicate n '\\' ++ [c]) ++ (scanArg w t q).1,
           n + 1 + (scanArg w t q).2.1,
           (scanArg w t q).2.2.1, (scanArg w t q).2.2.2))) := by
  have hq : ('"' : Char) ≠ '\\' := by decide
  have hcs := countSlashes_replicate n '"' rest hq
  have hdrop := drop_countSlashes_replicate n ('"' :: rest) hcs
  refine ⟨?_, ?_, ?_, ?_⟩
  · intro he hqq
    rw [scanArg_eq_toggle w _ q rest hdrop (by rw [hcs]; exact he) hqq, hcs]
  · intro ho
    rw [scanArg_eq_lit w _ q rest hdrop (by rw [hcs]; omega), hcs]
  · have hcs2 := countSlashes_replicate_nil n
    have hdrop2 : (List.replicate n '\\').drop
        (countSlashes (List.replicate n '\\')) = [] := by
      rw [hcs2]
      simp
    rw [scanArg_eq_nil w _ q hdrop2, hcs2]
  · intro c t hc hslash
    have hcs3 := countSlashes_replicate n c t hslash
    have hdrop3 := drop_countSlashes_replicate n (c :: t) hcs3
    constructor
    · intro hbr
      rw [scanArg_eq_break w _ q c t hdrop3 hc hbr, hcs3]
    · intro hbr
      rw [scanArg_eq_copy w _ q c t hdrop3 hc hbr, hcs3]

/-- C3: inside quoted mode, an even (possibly empty) backslash run followed
by two quote characters emits the run's `N / 2` literal backslashes and
exactly one literal quote character, and the tokenizer remains in quoted
mode (the continuation runs with the quote state still set). -/
theorem C3_escaped_quote_inside_quotes (w : Bool) (n : Nat) (rest : List Char)
    (he : n % 2 = 0) :
    scanArg w (List.replicate n '\\' ++ '"' :: '"' :: rest) true =
      (emitIf w (List.replicate (n / 2) '\\' ++ ['"']) ++ (scanArg w rest true).1,
       n / 2 + 1 + (scanArg w rest true).2.1,
       (scanArg w rest true).2.2.1, (scanArg w rest true).2.2.2) := by
  have hq : ('"' : Char) ≠ '\\' := by decide
  have hcs := countSlashes_replicate n '"' ('"' :: rest) hq
  have hdrop := drop_countSlashes_replicate n ('"' :: '"' :: rest) hcs
  rw [scanArg_eq_dq w _ true ('"' :: rest) hdrop (by rw [hcs]; exact he)
    ⟨rfl, by simp⟩, hcs]
  simp only [List.tail_cons]

/-- C2 (counterexample to the claim as stated): inside quoted mode with a
second quote following, an even backslash run before a quote does *not*
follow the plain even rule (toggle quoted mode, emit no quote): the
escaped-quote rule wins, one literal quote is emitted and quoted mode is
kept.  Here `N = 2`, inside quotes, on the input tail `""x`. -/
theorem C2_backslash_rule_counterexample :
    scanArg true (List.replicate 2 '\\' ++ '"' :: ['"', 'x']) true ≠
      (emitIf true (List.replicate (2 / 2) '\\') ++ (scanArg true ['"', 'x'] (!true)).1,
       2 / 2 + (scanArg true ['"', 'x'] (!true)).2.1,
       (scanArg true ['"', 'x'] (!true)).2.2.1,
       (scanArg true ['"', 'x'] (!true)).2.2.2) := by
  simp [scanArg, countSlashes, emitIf, List.replicate]

/-- C2 witness: the amended even rule at `N = 4`, outside quotes, tail `b`. -/
theorem C2_backslash_rule_amended_witness :
    (4 % 2 = 0 ∧ ¬((false = true) ∧ (['b'] : List Char).head? = some '"')) ∧
    scanArg true (List.replicate 4 '\\' ++ '"' :: ['b']) false =
      (emitIf true (List.replicate (4 / 2) '\\') ++ (scanArg true ['b'] (!false)).1,
       4 / 2 + (scanArg true ['b'] (!false)).2.1,
       (scanArg true ['b'] (!false)).2.2.1, (scanArg true ['b'] (!false)).2.2.2) :=
  ⟨⟨by decide, by decide⟩,
   (C2_backslash_rule_amended true 4 false ['b']).1 (by decide) (by decide)⟩

/-- C3 witness: the escaped-quote rule at `N = 2` on the tail `""x`. -/
theorem C3_escaped_quote_inside_quotes_witness :
    2 % 2 = 0 ∧
    scanArg true (List.replicate 2 '\\' ++ '"' :: '"' :: ['x']) true =
      (emitIf true (List.replicate (2 / 2) '\\' ++ ['"']) ++ (scanArg true ['x'] true).1,
       2 / 2 + 1 + (scanArg true ['x'] true).2.1,
       (scanArg true ['x'] true).2.2.1, (scanArg true ['x'] true).2.2.2) :=
  ⟨by decide, C3_escaped_quote_inside_quotes true 2 ['x'] (by decide)⟩

end EmccWrapper
